import Mathlib

/-!
Formal models of the pykeen training core.

This file gives a shallow embedding of the four source files of the
repository and proves properties of the embedded definitions:

* src/src/kg_embeddings_model/trans_e.py (TransE: margin ranking loss,
  score computation, single-triple prediction),
* src/src/poem/training_loops/cwa.py (the closed-world-assumption
  training loop: shuffling, batching, label vectors, label smoothing,
  the per-batch gradient protocol and the epoch loss bookkeeping),
* src/src/poem/models/unimodal/distmult.py (the post-parameter-update
  hook that renormalizes entity embedding rows, and the regularizer
  accumulation performed by the scoring methods).

Real tensor entries are modelled by rationals wherever the code only
adds, multiplies, compares and divides; the Euclidean normalization of
DistMult needs square roots and is modelled over the reals.
-/

namespace PyKeen

/-! ## TransE (src/src/kg_embeddings_model/trans_e.py) -/

/-- Target value y used by loss_fct (trans_e.py line 37): y = -1. -/
def marginRankingTarget : ℚ := -1

/-- Embedding of TransE.loss_fct (trans_e.py lines 27-46).  The criterion is
nn.MarginRankingLoss with the configured margin and size_average=False, i.e.
the sum over the batch of max(0, -y * (x1 - x2) + margin), applied with
x1 = pos_score, x2 = neg_score and y = marginRankingTarget = -1. -/
def loss_fct (margin : ℚ) (pos_score neg_score : List ℚ) : ℚ :=
  ((pos_score.zip neg_score).map
    (fun p => max 0 (-marginRankingTarget * (p.1 - p.2) + margin))).sum

/-- The margin-ranking loss as the specification states it (spec section 4.5):
the sum over the batch of the hinge max(0, margin - (pos - neg)).  Stated
from the words of the spec, for comparison with loss_fct. -/
def specMarginRankingLoss (margin : ℚ) (pos neg : List ℚ) : ℚ :=
  ((pos.zip neg).map (fun p => max 0 (margin - (p.1 - p.2)))).sum

/-- Embedding of TransE.calc_score (trans_e.py lines 48-60):
score = - sum |h_emb + r_emb - t_emb|, elementwise over the embedding
dimension. -/
def calc_score (h_emb r_emb t_emb : List ℚ) : ℚ :=
  -(((h_emb.zipWith (fun a b => a + b) r_emb).zipWith (fun a b => a - b) t_emb).map
      (fun x => |x|)).sum

/-- State of a TransE model: the two embedding tables and the margin
(trans_e.py lines 11-24).  A table row is the embedding vector of the id
equal to its index. -/
structure TransEModel where
  entities_embeddings : List (List ℚ)
  relation_embeddings : List (List ℚ)
  margin_loss : ℚ
deriving DecidableEq

/-- Embedding of TransE.predict (trans_e.py lines 62-79): look the three ids
up in the embedding tables and return calc_score of the three vectors.  An
out-of-range id makes the lookup fail (IndexError in the source), modelled
by none. -/
def TransEModel.predict (M : TransEModel) (triple : Nat × Nat × Nat) : Option ℚ := do
  let head_emb ← M.entities_embeddings[triple.1]?
  let relation_emb ← M.relation_embeddings[triple.2.1]?
  let tail_emb ← M.entities_embeddings[triple.2.2]?
  pure (calc_score head_emb relation_emb tail_emb)

/-- The predict call in state-passing form: the body of predict contains no
assignment to any model field, so the state component is returned unchanged
(trans_e.py lines 62-79). -/
def TransEModel.predictSt (M : TransEModel) (triple : Nat × Nat × Nat) :
    Option ℚ × TransEModel :=
  (M.predict triple, M)

/-- Score the batched forward pass computes for the positive row
(trans_e.py lines 102-110): the same three lookups followed by calc_score. -/
def TransEModel.forwardRowScore (M : TransEModel) (triple : Nat × Nat × Nat) :
    Option ℚ := do
  let pos_h_emb ← M.entities_embeddings[triple.1]?
  let pos_r_emb ← M.relation_embeddings[triple.2.1]?
  let pos_t_emb ← M.entities_embeddings[triple.2.2]?
  pure (calc_score pos_h_emb pos_r_emb pos_t_emb)

/-- C1.  The claim says loss_fct computes the sum of max(0, margin - (pos - neg)),
zero whenever pos - neg is at least the margin.  The code passes y = -1 to the
margin ranking criterion, which yields the sum of max(0, margin + (pos - neg))
instead.  At margin 1, pos_score = [2], neg_score = [0] the claim predicts
loss 0 (the positive exceeds the negative by 2, beyond the margin), but the
embedded code yields 3, and the loss grows with pos - neg instead of
shrinking. -/
theorem C1_loss_fct_direction_bug :
    loss_fct 1 [2] [0] = 3
      ∧ specMarginRankingLoss 1 [2] [0] = 0
      ∧ loss_fct 1 [2] [0] ≠ specMarginRankingLoss 1 [2] [0]
      ∧ loss_fct 1 [3] [0] > loss_fct 1 [2] [0] := by
  refine ⟨?_, ?_, ?_, ?_⟩ <;>
    norm_num [loss_fct, specMarginRankingLoss, marginRankingTarget, max_def]

/-- C9.  For an in-range triple, predict returns exactly the score of
calc_score on the three looked-up embedding vectors, which is the score the
batched forward path computes for that row, and the model state is unchanged
by the call. -/
theorem C9_predict_matches_forward_and_is_pure (M : TransEModel) (h r t : Nat)
    (hh : h < M.entities_embeddings.length)
    (hr : r < M.relation_embeddings.length)
    (ht : t < M.entities_embeddings.length) :
    (M.predictSt (h, r, t)).1
        = some (calc_score (M.entities_embeddings.getD h [])
            (M.relation_embeddings.getD r []) (M.entities_embeddings.getD t []))
      ∧ (M.predictSt (h, r, t)).1 = M.forwardRowScore (h, r, t)
      ∧ (M.predictSt (h, r, t)).2 = M := by
  refine ⟨?_, ?_, rfl⟩
  · simp [TransEModel.predictSt, TransEModel.predict,
      List.getElem?_eq_getElem hh, List.getElem?_eq_getElem hr,
      List.getElem?_eq_getElem ht,
      List.getD_eq_getElem _ _ hh, List.getD_eq_getElem _ _ hr,
      List.getD_eq_getElem _ _ ht]
  · rfl

/-- Witness for C9 at a concrete model: one entity row [1, 2], one relation
row [3, 4], triple (0, 0, 0); the score is -(|1+3-1| + |2+4-2|) = -7. -/
theorem C9_predict_matches_forward_and_is_pure_witness :
    (0 < (TransEModel.mk [[1, 2]] [[3, 4]] 1).entities_embeddings.length)
      ∧ ((TransEModel.mk [[1, 2]] [[3, 4]] 1).predictSt (0, 0, 0)).1 = some (-7)
      ∧ ((TransEModel.mk [[1, 2]] [[3, 4]] 1).predictSt (0, 0, 0)).2
          = TransEModel.mk [[1, 2]] [[3, 4]] 1 := by
  have h := C9_predict_matches_forward_and_is_pure (TransEModel.mk [[1, 2]] [[3, 4]] 1)
    0 0 0 (by decide) (by decide) (by decide)
  refine ⟨by decide, ?_, h.2.2⟩
  rw [h.1]
  norm_num [calc_score]

/-! ## CWA training loop (src/src/poem/training_loops/cwa.py) -/

/-- Modelled from the spec: split_list_in_batches lives in
training_loops/utils.py, which is not among the source files; per spec
section 4.4 it partitions the list into fixed-size chunks whose last chunk
may be short.  Fuel-based recursion so that applications reduce; the fuel is
always instantiated with the length of the list. -/
def splitGo (batch_size : Nat) : Nat → List α → List (List α)
  | _, [] => []
  | 0, _ :: _ => []
  | fuel + 1, x :: xs => (x :: xs).take batch_size :: splitGo batch_size fuel ((x :: xs).drop batch_size)

/-- Modelled from the spec: fixed-size chunking, last chunk possibly short
(spec section 4.4), as used at cwa.py lines 43-44. -/
def split_list_in_batches (batch_size : Nat) (l : List α) : List (List α) :=
  splitGo batch_size l.length l

/-- Label vector construction (cwa.py lines 51-53): a zero vector of width
num_entities with the slots listed in the batch label set to one. -/
def labelVector (lbl : List Nat) (num_entities : Nat) : List ℚ :=
  (List.range num_entities).map (fun j => if j ∈ lbl then 1 else 0)

/-- Label smoothing (cwa.py lines 55-57):
labels * (1 - epsilon) + epsilon / (num_entities - 1), elementwise. -/
def smoothLabels (epsilon : ℚ) (num_entities : Nat) (v : List ℚ) : List ℚ :=
  v.map (fun x => x * (1 - epsilon) + epsilon / ((num_entities : ℚ) - 1))

/-- The full label matrix of a batch (cwa.py lines 51-57): one label vector
per batch instance, smoothed when label_smoothing is set. -/
def batchLabelsFull (label_smoothing : Bool) (epsilon : ℚ) (num_entities : Nat)
    (batch_labels : List (List Nat)) : List (List ℚ) :=
  let full := batch_labels.map (fun lbl => labelVector lbl num_entities)
  if label_smoothing then full.map (smoothLabels epsilon num_entities) else full

/-- Observable actions of one training step, in the order the statements of
cwa.py lines 59-66 perform them.  postParameterUpdate stands for a call of
the forward-constraint hook of the model. -/
inductive Event where
  | zeroGrad
  | forwardPass
  | backward
  | optStep
  | postParameterUpdate
deriving DecidableEq

/-- The events one batch of cwa.py lines 59-66 emits: optimizer.zero_grad,
the forward call computing the loss, loss.backward, optimizer.step.  No
other call occurs in the batch body. -/
def batchEvents : List Event :=
  [Event.zeroGrad, Event.forwardPass, Event.backward, Event.optStep]

/-- The inner batch loop of one epoch (cwa.py lines 47-66), with the scoring
model abstracted: fwd gives the loss of the forward call, upd the model
after the optimizer step.  Returns the epoch-loss accumulator (the sum of
loss times current_batch_size), the final model, and the emitted events. -/
def runBatches (fwd : M → List (Nat × Nat) → List (List ℚ) → ℚ)
    (upd : M → List (Nat × Nat) → List (List ℚ) → M)
    (label_smoothing : Bool) (epsilon : ℚ) (num_entities : Nat) :
    M → List (List (Nat × Nat) × List (List Nat)) → ℚ × M × List Event
  | m, [] => (0, m, [])
  | m, (batch_pairs, batch_labels) :: rest =>
    let full := batchLabelsFull label_smoothing epsilon num_entities batch_labels
    let loss := fwd m batch_pairs full
    let m2 := upd m batch_pairs full
    let r := runBatches fwd upd label_smoothing epsilon num_entities m2 rest
    (loss * (batch_pairs.length : ℚ) + r.1, r.2.1, batchEvents ++ r.2.2)

/-- The per-batch bookkeeping data of the same loop: the loss value and the
current batch size of each batch, in order. -/
def batchStats (fwd : M → List (Nat × Nat) → List (List ℚ) → ℚ)
    (upd : M → List (Nat × Nat) → List (List ℚ) → M)
    (label_smoothing : Bool) (epsilon : ℚ) (num_entities : Nat) :
    M → List (List (Nat × Nat) × List (List Nat)) → List (ℚ × Nat)
  | _, [] => []
  | m, (batch_pairs, batch_labels) :: rest =>
    let full := batchLabelsFull label_smoothing epsilon num_entities batch_labels
    (fwd m batch_pairs full, batch_pairs.length)
      :: batchStats fwd upd label_smoothing epsilon num_entities (upd m batch_pairs full) rest

/-- One epoch body after the shuffle (cwa.py lines 43-69): slice pairs and
labels into batches, run the batch loop, divide the accumulator by the
length of the (shuffled) instance list. -/
def runEpoch (fwd : M → List (Nat × Nat) → List (List ℚ) → ℚ)
    (upd : M → List (Nat × Nat) → List (List ℚ) → M)
    (label_smoothing : Bool) (epsilon : ℚ) (num_entities batch_size : Nat)
    (m : M) (pairs : List (Nat × Nat)) (labels : List (List Nat)) :
    ℚ × M × List Event :=
  let batches := (split_list_in_batches batch_size pairs).zip
    (split_list_in_batches batch_size labels)
  let r := runBatches fwd upd label_smoothing epsilon num_entities m batches
  (r.1 / (pairs.length : ℚ), r.2.1, r.2.2)

/-- Numpy fancy-indexing reassignment (cwa.py lines 41-42): the new list has
old[idx[i]] at position i.  In the source idx is always a permutation of
the index range, so every lookup is in range; the default is never read
then. -/
def reindex (l : List α) (idx : List Nat) (dflt : α) : List α :=
  idx.map (fun i => l.getD i dflt)

/-- Modelled from the spec: the closed-world Instances object
(instance_creation_factories, not among the source files) carries the
(head, relation) pairs, the parallel list of completion-id lists, and the
entity count read off entity_to_id (spec section 6, cwa.py lines 31-33). -/
structure Instances where
  instances : List (Nat × Nat)
  labels : List (List Nat)
  num_entities : Nat

/-- Return value of CWATrainingLoop.train (cwa.py line 71) together with the
trace of step events the run emitted. -/
structure TrainResult (M : Type) where
  model : M
  losses_per_epochs : List ℚ
  trace : List Event
deriving DecidableEq

/-- Error type of the eager configuration validation the spec describes in
section 7.  The body of CWATrainingLoop.train contains no validation and no
raise statement, so the embedding never produces this error. -/
def InvalidConfiguration : Type := String

/-- The epoch loop of cwa.py lines 38-69: per epoch draw the permutation of
the epoch (perms), reindex pairs and labels with it, run the epoch body,
record the epoch loss, and continue on the shuffled lists and updated
model. -/
def epochsLoop (fwd : M → List (Nat × Nat) → List (List ℚ) → ℚ)
    (upd : M → List (Nat × Nat) → List (List ℚ) → M)
    (perms : Nat → List Nat) (label_smoothing : Bool) (epsilon : ℚ)
    (num_entities batch_size : Nat) :
    Nat → Nat → List (Nat × Nat) → List (List Nat) → M → M × List ℚ × List Event
  | 0, _, _, _, m => (m, [], [])
  | k + 1, e, pairs, labels, m =>
    let idx := perms e
    let pairs2 := reindex pairs idx (0, 0)
    let labels2 := reindex labels idx []
    let r := runEpoch fwd upd label_smoothing epsilon num_entities batch_size m pairs2 labels2
    let rest := epochsLoop fwd upd perms label_smoothing epsilon num_entities batch_size
      k (e + 1) pairs2 labels2 r.2.1
    (rest.1, r.1 :: rest.2.1, r.2.2 ++ rest.2.2)

/-- Embedding of CWATrainingLoop.train (cwa.py lines 21-71).  The epoch-wise
shuffle permutations, drawn from the process-wide random source in the
source, are passed in as perms.  The body performs no configuration
validation, so the result is always ok. -/
def train (fwd : M → List (Nat × Nat) → List (List ℚ) → ℚ)
    (upd : M → List (Nat × Nat) → List (List ℚ) → M)
    (training_instances : Instances) (perms : Nat → List Nat)
    (num_epochs batch_size : Nat) (label_smoothing : Bool) (epsilon : ℚ)
    (m0 : M) : Except InvalidConfiguration (TrainResult M) :=
  let r := epochsLoop fwd upd perms label_smoothing epsilon
    training_instances.num_entities batch_size num_epochs 0
    training_instances.instances training_instances.labels m0
  Except.ok ⟨r.1, r.2.1, r.2.2⟩

/-! ### Basic facts about the batching and the batch loop -/

theorem splitGo_join (batch_size : Nat) (hb : 0 < batch_size) :
    ∀ (fuel : Nat) (l : List α), l.length ≤ fuel →
      (splitGo batch_size fuel l).flatten = l := by
  intro fuel
  induction fuel with
  | zero =>
    intro l hl
    cases l with
    | nil => rfl
    | cons x xs => simp at hl
  | succ n ih =>
    intro l hl
    cases l with
    | nil => rfl
    | cons x xs =>
      rw [splitGo, List.flatten_cons, ih ((x :: xs).drop batch_size)
        (by simp only [List.length_drop]; omega)]
      exact List.take_append_drop _ _

theorem split_list_in_batches_join (batch_size : Nat) (hb : 0 < batch_size)
    (l : List α) : (split_list_in_batches batch_size l).flatten = l :=
  splitGo_join batch_size hb l.length l le_rfl

theorem splitGo_length_congr (batch_size : Nat) (hb : 0 < batch_size) :
    ∀ (fuel : Nat) (l1 : List α) (l2 : List β), l1.length ≤ fuel →
      l1.length = l2.length →
      (splitGo batch_size fuel l1).length = (splitGo batch_size fuel l2).length := by
  intro fuel
  induction fuel with
  | zero =>
    intro l1 l2 h1 h12
    cases l1 with
    | nil => cases l2 with
      | nil => rfl
      | cons y ys => simp at h12
    | cons x xs => simp at h1
  | succ n ih =>
    intro l1 l2 h1 h12
    cases l1 with
    | nil =>
      cases l2 with
      | nil => rfl
      | cons y ys => simp at h12
    | cons x xs =>
      cases l2 with
      | nil => simp at h12
      | cons y ys =>
        rw [splitGo, splitGo]
        simp only [List.length_cons]
        rw [ih ((x :: xs).drop batch_size) ((y :: ys).drop batch_size)
          (by simp only [List.length_drop]; omega)
          (by simp only [List.length_drop]; rw [h12])]

theorem split_list_in_batches_length_congr (batch_size : Nat) (hb : 0 < batch_size)
    (l1 : List α) (l2 : List β) (h12 : l1.length = l2.length) :
    (split_list_in_batches batch_size l1).length
      = (split_list_in_batches batch_size l2).length := by
  rw [split_list_in_batches, split_list_in_batches, ← h12]
  exact splitGo_length_congr batch_size hb l1.length l1 l2 le_rfl h12

theorem runBatches_acc (fwd : M → List (Nat × Nat) → List (List ℚ) → ℚ)
    (upd : M → List (Nat × Nat) → List (List ℚ) → M)
    (label_smoothing : Bool) (epsilon : ℚ) (num_entities : Nat) :
    ∀ (bs : List (List (Nat × Nat) × List (List Nat))) (m : M),
      (runBatches fwd upd label_smoothing epsilon num_entities m bs).1
        = ((batchStats fwd upd label_smoothing epsilon num_entities m bs).map
            (fun p => p.1 * (p.2 : ℚ))).sum := by
  intro bs
  induction bs with
  | nil => intro m; simp [runBatches, batchStats]
  | cons hd tl ih =>
    intro m
    cases hd with
    | mk bp bl => simp [runBatches, batchStats, ih]

theorem runBatches_trace (fwd : M → List (Nat × Nat) → List (List ℚ) → ℚ)
    (upd : M → List (Nat × Nat) → List (List ℚ) → M)
    (label_smoothing : Bool) (epsilon : ℚ) (num_entities : Nat) :
    ∀ (bs : List (List (Nat × Nat) × List (List Nat))) (m : M),
      (runBatches fwd upd label_smoothing epsilon num_entities m bs).2.2
        = List.flatten (List.replicate bs.length batchEvents) := by
  intro bs
  induction bs with
  | nil => intro m; simp [runBatches]
  | cons hd tl ih =>
    intro m
    cases hd with
    | mk bp bl => simp [runBatches, ih, List.replicate_succ]

theorem batchStats_sizes (fwd : M → List (Nat × Nat) → List (List ℚ) → ℚ)
    (upd : M → List (Nat × Nat) → List (List ℚ) → M)
    (label_smoothing : Bool) (epsilon : ℚ) (num_entities : Nat) :
    ∀ (bs : List (List (Nat × Nat) × List (List Nat))) (m : M),
      (batchStats fwd upd label_smoothing epsilon num_entities m bs).map
          (fun p => (p.2 : ℚ))
        = bs.map (fun pr => ((pr.1.length : Nat) : ℚ)) := by
  intro bs
  induction bs with
  | nil => intro m; simp [batchStats]
  | cons hd tl ih =>
    intro m
    cases hd with
    | mk bp bl => simp [batchStats, ih]

theorem sum_cast_lengths (L : List (List α)) :
    (L.map (fun c => ((c.length : Nat) : ℚ))).sum = ((L.map List.length).sum : ℚ) := by
  induction L with
  | nil => simp
  | cons hd tl ih => simp [ih]

/-- C5.  The epoch loss recorded by the loop is the size-weighted mean of the
per-batch losses: the accumulator sums loss times current batch size, and
the division is by the total instance count, which equals the sum of the
batch sizes. -/
theorem C5_epoch_loss_is_weighted_mean (fwd : M → List (Nat × Nat) → List (List ℚ) → ℚ)
    (upd : M → List (Nat × Nat) → List (List ℚ) → M)
    (label_smoothing : Bool) (epsilon : ℚ) (num_entities batch_size : Nat) (m : M)
    (pairs : List (Nat × Nat)) (labels : List (List Nat))
    (hb : 0 < batch_size) (hlen : labels.length = pairs.length) (_hne : pairs ≠ []) :
    (runEpoch fwd upd label_smoothing epsilon num_entities batch_size m pairs labels).1
      = ((batchStats fwd upd label_smoothing epsilon num_entities m
            ((split_list_in_batches batch_size pairs).zip
              (split_list_in_batches batch_size labels))).map
          (fun p => p.1 * (p.2 : ℚ))).sum
        / ((batchStats fwd upd label_smoothing epsilon num_entities m
            ((split_list_in_batches batch_size pairs).zip
              (split_list_in_batches batch_size labels))).map
          (fun p => (p.2 : ℚ))).sum := by
  have hA : (split_list_in_batches batch_size pairs).length
      = (split_list_in_batches batch_size labels).length :=
    split_list_in_batches_length_congr batch_size hb pairs labels hlen.symm
  have hfst : ((split_list_in_batches batch_size pairs).zip
        (split_list_in_batches batch_size labels)).map Prod.fst
      = split_list_in_batches batch_size pairs :=
    List.map_fst_zip _ _ (le_of_eq hA)
  have hden : ((batchStats fwd upd label_smoothing epsilon num_entities m
        ((split_list_in_batches batch_size pairs).zip
          (split_list_in_batches batch_size labels))).map
      (fun p => (p.2 : ℚ))).sum = (pairs.length : ℚ) := by
    rw [batchStats_sizes]
    have hcomp : (((split_list_in_batches batch_size pairs).zip
          (split_list_in_batches batch_size labels)).map
        (fun pr => ((pr.1.length : Nat) : ℚ)))
        = (split_list_in_batches batch_size pairs).map (fun c => ((c.length : Nat) : ℚ)) := by
      rw [show (fun pr : List (Nat × Nat) × List (List Nat) => ((pr.1.length : Nat) : ℚ))
          = (fun c : List (Nat × Nat) => ((c.length : Nat) : ℚ)) ∘ Prod.fst from rfl,
        ← List.map_map, hfst]
    rw [hcomp, sum_cast_lengths, ← List.length_flatten,
      split_list_in_batches_join batch_size hb]
  rw [runEpoch, hden]
  rw [runBatches_acc]

/-! ### The event trace of the training run -/

theorem epochsLoop_trace (fwd : M → List (Nat × Nat) → List (List ℚ) → ℚ)
    (upd : M → List (Nat × Nat) → List (List ℚ) → M)
    (perms : Nat → List Nat) (label_smoothing : Bool) (epsilon : ℚ)
    (num_entities batch_size : Nat) :
    ∀ (k e : Nat) (pairs : List (Nat × Nat)) (labels : List (List Nat)) (m : M),
      ∃ K, (epochsLoop fwd upd perms label_smoothing epsilon num_entities batch_size
          k e pairs labels m).2.2
        = List.flatten (List.replicate K batchEvents) := by
  intro k
  induction k with
  | zero => intro e pairs labels m; exact ⟨0, rfl⟩
  | succ n ih =>
    intro e pairs labels m
    obtain ⟨K, hK⟩ := ih (e + 1) (reindex pairs (perms e) (0, 0))
      (reindex labels (perms e) [])
      (runEpoch fwd upd label_smoothing epsilon num_entities batch_size m
        (reindex pairs (perms e) (0, 0)) (reindex labels (perms e) [])).2.1
    refine ⟨((split_list_in_batches batch_size (reindex pairs (perms e) (0, 0))).zip
      (split_list_in_batches batch_size (reindex labels (perms e) []))).length + K, ?_⟩
    simp only [epochsLoop]
    rw [List.replicate_add, List.flatten_append, ← hK]
    congr 1
    exact runBatches_trace fwd upd label_smoothing epsilon num_entities _ m

theorem not_mem_join_replicate_batchEvents (K : Nat) :
    Event.postParameterUpdate ∉ List.flatten (List.replicate K batchEvents) := by
  intro h
  obtain ⟨l, hl, hx⟩ := List.mem_flatten.mp h
  rw [List.eq_of_mem_replicate hl] at hx
  simp [batchEvents] at hx

/-- C3.  Amended form: in every epoch each batch performs, in order, zero
gradients, the forward pass, the backward pass and the optimizer step; the
forward-constraint hook post_parameter_update is never invoked by this
training loop, after no optimizer step. -/
theorem C3_batch_protocol_without_hook (fwd : M → List (Nat × Nat) → List (List ℚ) → ℚ)
    (upd : M → List (Nat × Nat) → List (List ℚ) → M)
    (training_instances : Instances) (perms : Nat → List Nat)
    (num_epochs batch_size : Nat) (label_smoothing : Bool) (epsilon : ℚ) (m0 : M) :
    ∃ (r : TrainResult M) (K : Nat),
      train fwd upd training_instances perms num_epochs batch_size
          label_smoothing epsilon m0 = Except.ok r
        ∧ r.trace = List.flatten (List.replicate K batchEvents)
        ∧ Event.postParameterUpdate ∉ r.trace := by
  obtain ⟨K, hK⟩ := epochsLoop_trace fwd upd perms label_smoothing epsilon
    training_instances.num_entities batch_size num_epochs 0
    training_instances.instances training_instances.labels m0
  refine ⟨_, K, rfl, hK, ?_⟩
  rw [hK]
  exact not_mem_join_replicate_batchEvents K

/-- C3 counterexample.  A concrete one-epoch, one-batch run: the trace ends
with the optimizer step and contains no post_parameter_update event, so the
hook is not invoked once after every optimizer step as the claim states. -/
theorem C3_counterexample_no_hook_after_step :
    train (fun (_ : Unit) _ _ => (0 : ℚ)) (fun m _ _ => m)
        (Instances.mk [(0, 0)] [[1]] 2) (fun _ => [0]) 1 1 false 0 ()
      = Except.ok (TrainResult.mk () [0]
          [Event.zeroGrad, Event.forwardPass, Event.backward, Event.optStep])
      ∧ [Event.zeroGrad, Event.forwardPass, Event.backward,
          Event.optStep].count Event.optStep = 1
      ∧ [Event.zeroGrad, Event.forwardPass, Event.backward,
          Event.optStep].count Event.postParameterUpdate = 0 := by
  refine ⟨?_, by decide, by decide⟩
  simp only [train, epochsLoop, runEpoch, runBatches, reindex, split_list_in_batches,
    splitGo, batchLabelsFull, labelVector, smoothLabels, batchEvents]
  norm_num

/-- C4.  Amended form: train performs no configuration validation at all and
never raises InvalidConfiguration; a run with zero epochs returns normally
with the model untouched and an empty loss history. -/
theorem C4_no_validation_ever (fwd : M → List (Nat × Nat) → List (List ℚ) → ℚ)
    (upd : M → List (Nat × Nat) → List (List ℚ) → M)
    (training_instances : Instances) (perms : Nat → List Nat)
    (num_epochs batch_size : Nat) (label_smoothing : Bool) (epsilon : ℚ) (m0 : M) :
    (train fwd upd training_instances perms num_epochs batch_size
        label_smoothing epsilon m0).isOk = true
      ∧ train fwd upd training_instances perms 0 batch_size
          label_smoothing epsilon m0 = Except.ok (TrainResult.mk m0 [] []) := by
  exact ⟨rfl, rfl⟩

/-- C4 counterexample.  With num_epochs = 0 the call returns ok instead of
raising InvalidConfiguration, and with the out-of-range smoothing epsilon
3/2 the call still returns ok and even performs an optimizer step (optStep
is in the trace), so the error is neither raised eagerly nor at all. -/
theorem C4_counterexample_invalid_config_not_rejected :
    train (fun (_ : Unit) _ _ => (0 : ℚ)) (fun m _ _ => m)
        (Instances.mk [(0, 0)] [[1]] 2) (fun _ => [0]) 0 1 true (3 / 2) ()
      = Except.ok (TrainResult.mk () [] [])
      ∧ train (fun (_ : Unit) _ _ => (0 : ℚ)) (fun m _ _ => m)
          (Instances.mk [(0, 0)] [[1]] 2) (fun _ => [0]) 1 1 true (3 / 2) ()
        = Except.ok (TrainResult.mk () [0]
            [Event.zeroGrad, Event.forwardPass, Event.backward, Event.optStep]) := by
  constructor
  · rfl
  · simp only [train, epochsLoop, runEpoch, runBatches, reindex, split_list_in_batches,
      splitGo, batchLabelsFull, labelVector, smoothLabels, batchEvents]
    norm_num

/-! ### Label vectors and label smoothing -/

theorem labelVector_length (lbl : List Nat) (num_entities : Nat) :
    (labelVector lbl num_entities).length = num_entities := by
  simp [labelVector]

/-- C2.  Amended form: after smoothing, the slot of every true completion
holds (1 - epsilon) + epsilon / (num_entities - 1) — the positive entry is
scaled by 1 - epsilon and then, like every other entry, receives the
epsilon / (num_entities - 1) offset — and every other slot holds exactly
epsilon / (num_entities - 1). -/
theorem C2_smoothed_label_values (epsilon : ℚ) (num_entities : Nat)
    (lbl : List Nat) (j : Nat) (hj : j < num_entities) :
    (smoothLabels epsilon num_entities (labelVector lbl num_entities)).getD j 0
      = if j ∈ lbl
        then (1 - epsilon) + epsilon / ((num_entities : ℚ) - 1)
        else epsilon / ((num_entities : ℚ) - 1) := by
  have hlen : (smoothLabels epsilon num_entities (labelVector lbl num_entities)).length
      = num_entities := by
    simp [smoothLabels, labelVector]
  rw [List.getD_eq_getElem _ _ (by rw [hlen]; exact hj)]
  simp only [smoothLabels, labelVector, List.getElem_map, List.getElem_range]
  split_ifs <;> ring

/-- Witness for C2 at the scenario of spec section 8: three entities,
epsilon 1/10, true completions 1 and 2; slot 1 holds 9/10 + 1/20 = 19/20. -/
theorem C2_smoothed_label_values_witness :
    1 < 3
      ∧ (smoothLabels (1 / 10) 3 (labelVector [1, 2] 3)).getD 1 0
          = if 1 ∈ [1, 2]
            then (1 - 1 / 10 : ℚ) + (1 / 10) / ((3 : ℚ) - 1)
            else (1 / 10) / ((3 : ℚ) - 1) :=
  ⟨by norm_num, C2_smoothed_label_values (1 / 10) 3 [1, 2] 1 (by norm_num)⟩

/-- C2 counterexample.  At num_entities 3, epsilon 1/10 and completion set
{1, 2} the smoothed vector is [1/20, 19/20, 19/20]: the true-completion
slots hold 19/20, not the 1 - epsilon = 9/10 the claim states. -/
theorem C2_counterexample_true_slot_value :
    smoothLabels (1 / 10) 3 (labelVector [1, 2] 3) = [1 / 20, 19 / 20, 19 / 20]
      ∧ ((19 : ℚ) / 20) ≠ 1 - 1 / 10 := by
  constructor
  · norm_num [smoothLabels, labelVector, List.range_succ]
  · norm_num

theorem sum_map_indicator (L lbl : List Nat) :
    (L.map (fun j => if j ∈ lbl then (1 : ℚ) else 0)).sum
      = ((L.countP (fun j => decide (j ∈ lbl)) : Nat) : ℚ) := by
  induction L with
  | nil => simp
  | cons a t ih =>
    simp only [List.map_cons, List.sum_cons, ih, List.countP_cons]
    by_cases ha : a ∈ lbl <;> simp [ha, add_comm]

theorem countP_range_mem (lbl : List Nat) (num_entities : Nat)
    (hb : ∀ x ∈ lbl, x < num_entities) (hnd : lbl.Nodup) :
    (List.range num_entities).countP (fun j => decide (j ∈ lbl)) = lbl.length := by
  rw [List.countP_eq_length_filter]
  refine List.Perm.length_eq ?_
  rw [List.perm_ext_iff_of_nodup (List.Nodup.filter _ (List.nodup_range num_entities)) hnd]
  intro a
  simp only [List.mem_filter, List.mem_range, decide_eq_true_eq]
  exact ⟨fun h => h.2, fun h => ⟨hb a h, h⟩⟩

/-- C6.  The unsmoothed label vector of a pair holds 1 exactly at the
completion ids of the pair and 0 everywhere else, and its sum is the number
of completions. -/
theorem C6_label_vector_exact (lbl : List Nat) (num_entities : Nat)
    (hb : ∀ x ∈ lbl, x < num_entities) (hnd : lbl.Nodup) :
    (labelVector lbl num_entities).sum = (lbl.length : ℚ)
      ∧ ∀ j, j < num_entities →
          (labelVector lbl num_entities).getD j 0 = if j ∈ lbl then 1 else 0 := by
  constructor
  · rw [labelVector, sum_map_indicator, countP_range_mem lbl num_entities hb hnd]
  · intro j hj
    rw [List.getD_eq_getElem _ _ (by rw [labelVector_length]; exact hj)]
    simp only [labelVector, List.getElem_map, List.getElem_range]

/-- Witness for C6 at three entities with completion set {1, 2}: the label
vector sums to 2, slot 1 holds 1 and slot 0 holds 0. -/
theorem C6_label_vector_exact_witness :
    ([1, 2] : List Nat).Nodup
      ∧ (labelVector [1, 2] 3).sum = ((2 : Nat) : ℚ)
      ∧ (labelVector [1, 2] 3).getD 1 0 = (if 1 ∈ [1, 2] then (1 : ℚ) else 0)
      ∧ (labelVector [1, 2] 3).getD 0 0 = (if 0 ∈ [1, 2] then (1 : ℚ) else 0) := by
  have h := C6_label_vector_exact [1, 2] 3 (by decide) (by decide)
  exact ⟨by decide, h.1, h.2 1 (by decide), h.2 0 (by decide)⟩

/-! ### The epoch shuffle -/

/-- C10.  When the index list is a permutation of the index range — which
np.random.shuffle of np.arange guarantees — the same reindexing is applied
to the pairs and to the labels, so position i of both shuffled lists comes
from the same old position idx[i], and the list of (pair, label) instances
after the shuffle is a permutation of the one before. -/
theorem C10_shuffle_keeps_alignment (pairs : List (Nat × Nat))
    (labels : List (List Nat)) (idx : List Nat)
    (hl : labels.length = pairs.length)
    (hperm : idx.Perm (List.range pairs.length)) :
    (∀ i, i < pairs.length →
        (reindex pairs idx (0, 0)).getD i (0, 0) = pairs.getD (idx.getD i 0) (0, 0)
          ∧ (reindex labels idx []).getD i [] = labels.getD (idx.getD i 0) [])
      ∧ ((reindex pairs idx (0, 0)).zip (reindex labels idx [])).Perm
          (pairs.zip labels) := by
  have hil : idx.length = pairs.length := by
    rw [hperm.length_eq, List.length_range]
  constructor
  · intro i hi
    have hi' : i < idx.length := by rw [hil]; exact hi
    constructor
    · rw [reindex, List.getD_eq_getElem _ _ (by simpa using hi'),
        List.getElem_map, List.getD_eq_getElem idx _ hi']
    · rw [reindex, List.getD_eq_getElem _ _ (by simpa using hi'),
        List.getElem_map, List.getD_eq_getElem idx _ hi']
  · have hzip : (reindex pairs idx (0, 0)).zip (reindex labels idx [])
        = idx.map (fun i => (pairs.getD i (0, 0), labels.getD i [])) := by
      rw [reindex, reindex, List.zip_map']
    have hrange : (List.range pairs.length).map
          (fun i => (pairs.getD i (0, 0), labels.getD i []))
        = pairs.zip labels := by
      apply List.ext_getElem
      · simp [hl]
      · intro i h1 h2
        have hip : i < pairs.length := by simpa using h1
        have hilb : i < labels.length := by rw [hl]; exact hip
        rw [List.getElem_map, List.getElem_range, List.getElem_zip,
          List.getD_eq_getElem _ _ hip, List.getD_eq_getElem _ _ hilb]
    rw [hzip, ← hrange]
    exact hperm.map _

/-- Witness for C10 at three instances and the permutation [2, 0, 1]. -/
theorem C10_shuffle_keeps_alignment_witness :
    ([2, 0, 1] : List Nat).Perm (List.range 3)
      ∧ ((reindex [(0, 0), (1, 1), (2, 2)] [2, 0, 1] (0, 0)).zip
          (reindex [[0], [1], [2]] [2, 0, 1] [])).Perm
          ([(0, 0), (1, 1), (2, 2)].zip [[0], [1], [2]])
      ∧ (reindex [(0, 0), (1, 1), (2, 2)] [2, 0, 1] (0, 0)).getD 0 (0, 0)
          = [(0, 0), (1, 1), (2, 2)].getD ([2, 0, 1].getD 0 0) (0, 0) := by
  have h := C10_shuffle_keeps_alignment [(0, 0), (1, 1), (2, 2)] [[0], [1], [2]]
    [2, 0, 1] rfl (by decide)
  exact ⟨by decide, h.2, (h.1 0 (by decide)).1⟩

/-! ## DistMult regularizer accumulation
(src/src/poem/models/unimodal/distmult.py lines 131-171) -/

/-- Accumulator state of the attached regularizer: the penalty term collected
in the current step, and whether it has already been updated in this step. -/
structure RegularizerState where
  term : ℚ
  updated : Bool
deriving DecidableEq

/-- Modelled from the spec: regularize_if_necessary and the Regularizer
object live in models/base.py and the regularizers module, which are not
among the source files.  Spec section 4.2: the penalty of the embeddings
touched by a scoring call is added to the loss exactly once per forward
pass that touches it and never double-counted across repeated calls within
the same step.  Modelled by an updated flag: the first call of a step adds
the penalty and sets the flag, later calls observe the flag and leave the
state unchanged.  Each of score_hrt, score_t and score_h performs exactly
one such call, on the relation embeddings of its batch (distmult.py lines
140-141, 154-155, 168-169). -/
def regularize_if_necessary (penalty : ℚ) (s : RegularizerState) : RegularizerState :=
  if s.updated then s else RegularizerState.mk (s.term + penalty) true

theorem regularize_if_necessary_idem (penalty : ℚ) (s : RegularizerState) :
    regularize_if_necessary penalty (regularize_if_necessary penalty s)
      = regularize_if_necessary penalty s := by
  by_cases h : s.updated <;> simp [regularize_if_necessary, h]

/-- C7.  Within one step, any number of repeated scoring calls accumulates
the regularization penalty exactly once: n calls leave the same state as a
single call, and the accumulated term grows by exactly the penalty of one
call (when the step started un-updated). -/
theorem C7_regularizer_accumulates_once (s : RegularizerState) (penalty : ℚ)
    (n : Nat) (hn : 1 ≤ n) :
    (regularize_if_necessary penalty)^[n] s = regularize_if_necessary penalty s
      ∧ ((regularize_if_necessary penalty)^[n] s).term
          = (if s.updated then s.term else s.term + penalty) := by
  obtain ⟨k, rfl⟩ : ∃ k, n = k + 1 := ⟨n - 1, by omega⟩
  clear hn
  have hiter : ∀ k, (regularize_if_necessary penalty)^[k + 1] s
      = regularize_if_necessary penalty s := by
    intro k
    induction k with
    | zero => simp
    | succ m ihm =>
      rw [Function.iterate_succ_apply', ihm, regularize_if_necessary_idem]
  refine ⟨hiter k, ?_⟩
  rw [hiter k]
  by_cases h : s.updated <;> simp [regularize_if_necessary, h]

/-- Witness for C7: two consecutive calls with penalty 5 on a fresh state
behave like one and collect the penalty once. -/
theorem C7_regularizer_accumulates_once_witness :
    1 ≤ 2
      ∧ (regularize_if_necessary 5)^[2] (RegularizerState.mk 0 false)
          = regularize_if_necessary 5 (RegularizerState.mk 0 false)
      ∧ ((regularize_if_necessary 5)^[2] (RegularizerState.mk 0 false)).term
          = (if (RegularizerState.mk (0 : ℚ) false).updated then (0 : ℚ) else 0 + 5) := by
  have h := C7_regularizer_accumulates_once (RegularizerState.mk 0 false) 5 2 (by norm_num)
  exact ⟨by norm_num, h.1, h.2⟩

/-- Witness for C5: three instances, batch size 2 (so the chunks have sizes
2 and 1), with a forward loss equal to the batch size. -/
theorem C5_epoch_loss_is_weighted_mean_witness :
    0 < 2
      ∧ ([[0], [1], [0]] : List (List Nat)).length
          = ([(0, 0), (0, 1), (1, 0)] : List (Nat × Nat)).length
      ∧ ([(0, 0), (0, 1), (1, 0)] : List (Nat × Nat)) ≠ []
      ∧ (runEpoch (fun (_ : Unit) bp _ => (bp.length : ℚ)) (fun m _ _ => m)
            false 0 2 2 () [(0, 0), (0, 1), (1, 0)] [[0], [1], [0]]).1
          = ((batchStats (fun (_ : Unit) bp _ => (bp.length : ℚ)) (fun m _ _ => m)
                false 0 2 ()
                ((split_list_in_batches 2 [(0, 0), (0, 1), (1, 0)]).zip
                  (split_list_in_batches 2 [[0], [1], [0]]))).map
              (fun p => p.1 * (p.2 : ℚ))).sum
            / ((batchStats (fun (_ : Unit) bp _ => (bp.length : ℚ)) (fun m _ _ => m)
                false 0 2 ()
                ((split_list_in_batches 2 [(0, 0), (0, 1), (1, 0)]).zip
                  (split_list_in_batches 2 [[0], [1], [0]]))).map
              (fun p => (p.2 : ℚ))).sum :=
  ⟨by norm_num, rfl, by simp,
    C5_epoch_loss_is_weighted_mean (fun (_ : Unit) bp _ => (bp.length : ℚ))
      (fun m _ _ => m) false 0 2 2 () [(0, 0), (0, 1), (1, 0)] [[0], [1], [0]]
      (by norm_num) rfl (by simp)⟩

/-! ## DistMult entity normalization
(src/src/poem/models/unimodal/distmult.py lines 98-103)

post_parameter_update calls torch functional.normalize on the entity
embedding table with the default parameters p = 2, dim = 1 and
eps = 1e-12: every row v is replaced by v / max(l2-norm of v, eps). -/

/-- The eps clamp of torch functional.normalize, default 1e-12. -/
noncomputable def normEps : ℝ := 1 / 10 ^ 12

/-- Euclidean norm of one embedding row. -/
noncomputable def l2Norm {d : Nat} (v : Fin d → ℝ) : ℝ :=
  Real.sqrt (∑ i, v i ^ 2)

/-- One row of torch functional.normalize with p = 2:
v / max(l2-norm of v, eps). -/
noncomputable def normalizeRow {d : Nat} (v : Fin d → ℝ) : Fin d → ℝ :=
  fun i => v i / max (l2Norm v) normEps

/-- Embedding of DistMult.post_parameter_update (distmult.py lines 98-103):
renormalize every row of the entity embedding table in place. -/
noncomputable def post_parameter_update {m d : Nat} (E : Fin m → Fin d → ℝ) :
    Fin m → Fin d → ℝ :=
  fun i => normalizeRow (E i)

theorem normalizeRow_of_eps_le {d : Nat} (v : Fin d → ℝ)
    (hv : normEps ≤ l2Norm v) :
    l2Norm (normalizeRow v) = 1 ∧ normalizeRow (normalizeRow v) = normalizeRow v := by
  have heps : (0 : ℝ) < normEps := by norm_num [normEps]
  have hN : 0 < l2Norm v := lt_of_lt_of_le heps hv
  have hS : (l2Norm v) ^ 2 = ∑ i, v i ^ 2 :=
    Real.sq_sqrt (Finset.sum_nonneg fun i _ => sq_nonneg _)
  have hrw : normalizeRow v = fun i => v i / l2Norm v := by
    funext i
    simp only [normalizeRow, max_eq_left hv]
  have hunit : l2Norm (normalizeRow v) = 1 := by
    rw [hrw]
    simp only [l2Norm, div_pow]
    rw [← Finset.sum_div, ← hS, Real.sq_sqrt (sq_nonneg (l2Norm v)),
      div_self (pow_ne_zero 2 (ne_of_gt hN)), Real.sqrt_one]
  refine ⟨hunit, ?_⟩
  funext i
  simp only [normalizeRow, hunit]
  rw [max_eq_left (by norm_num [normEps] : normEps ≤ (1 : ℝ)), div_one]

/-- C8.  Amended form: on every entity table whose rows all have Euclidean
norm at least the eps clamp 1e-12 of the normalization, one application of
post_parameter_update makes every row have norm exactly 1, and a second
application changes nothing.  (Rows of norm below eps are divided by eps
instead of by their norm, so they need not come out at unit norm and a
second application can change them; see the counterexample.) -/
theorem C8_post_parameter_update_unit_and_idem (m d : Nat)
    (E : Fin m → Fin d → ℝ) (hE : ∀ i, normEps ≤ l2Norm (E i)) :
    (∀ i, l2Norm (post_parameter_update E i) = 1)
      ∧ post_parameter_update (post_parameter_update E) = post_parameter_update E := by
  constructor
  · intro i
    exact (normalizeRow_of_eps_le (E i) (hE i)).1
  · funext i
    exact (normalizeRow_of_eps_le (E i) (hE i)).2

/-- Witness for C8 at the one-row table with row (3, 4), of norm 5. -/
theorem C8_post_parameter_update_unit_and_idem_witness :
    normEps ≤ l2Norm ((fun _ : Fin 1 => ![3, (4 : ℝ)]) 0)
      ∧ post_parameter_update (post_parameter_update (fun _ : Fin 1 => ![3, (4 : ℝ)]))
          = post_parameter_update (fun _ : Fin 1 => ![3, (4 : ℝ)]) := by
  have h5 : l2Norm (![3, (4 : ℝ)] : Fin 2 → ℝ) = 5 := by
    simp only [l2Norm, Fin.sum_univ_two, Matrix.cons_val_zero, Matrix.cons_val_one,
      Matrix.head_cons]
    rw [show ((3 : ℝ) ^ 2 + 4 ^ 2) = 5 ^ 2 by norm_num,
      Real.sqrt_sq (by norm_num : (0 : ℝ) ≤ 5)]
  have hge : ∀ i : Fin 1, normEps ≤ l2Norm ((fun _ : Fin 1 => ![3, (4 : ℝ)]) i) := by
    intro i
    show normEps ≤ l2Norm (![3, (4 : ℝ)] : Fin 2 → ℝ)
    rw [h5]
    norm_num [normEps]
  exact ⟨hge 0, (C8_post_parameter_update_unit_and_idem 1 2 _ hge).2⟩

/-- C8 counterexample.  The one-row table whose row is (c, 0) with
c = 1 / (2 * 10^12), of norm c below the eps clamp: one application divides
by eps and yields the row (1/2, 0), of norm 1/2 rather than 1, and a second
application divides by 1/2 and yields (1, 0), so applying the hook twice
does not equal applying it once. -/
theorem C8_counterexample_tiny_row :
    post_parameter_update (post_parameter_update
        (fun _ : Fin 1 => ![1 / (2 * 10 ^ 12), (0 : ℝ)]))
      ≠ post_parameter_update (fun _ : Fin 1 => ![1 / (2 * 10 ^ 12), (0 : ℝ)])
      ∧ l2Norm (post_parameter_update (fun _ : Fin 1 => ![1 / (2 * 10 ^ 12), (0 : ℝ)]) 0) ≠ 1 := by
  have hc : l2Norm (![1 / (2 * 10 ^ 12), (0 : ℝ)] : Fin 2 → ℝ) = 1 / (2 * 10 ^ 12) := by
    simp only [l2Norm, Fin.sum_univ_two, Matrix.cons_val_zero, Matrix.cons_val_one,
      Matrix.head_cons]
    rw [show ((1 / (2 * 10 ^ 12) : ℝ) ^ 2 + 0 ^ 2) = (1 / (2 * 10 ^ 12)) ^ 2 by norm_num,
      Real.sqrt_sq (by norm_num : (0 : ℝ) ≤ 1 / (2 * 10 ^ 12))]
  have hmax : max (l2Norm (![1 / (2 * 10 ^ 12), (0 : ℝ)] : Fin 2 → ℝ)) normEps = normEps := by
    rw [hc]
    exact max_eq_right (by norm_num [normEps])
  have h1 : normalizeRow (![1 / (2 * 10 ^ 12), (0 : ℝ)] : Fin 2 → ℝ) = ![1 / 2, 0] := by
    funext i
    fin_cases i
    · simp only [normalizeRow]
      rw [hmax]
      simp only [Matrix.cons_val_zero, normEps]
      norm_num
    · simp only [normalizeRow]
      rw [hmax]
      simp only [Matrix.cons_val_one, Matrix.head_cons, normEps]
      norm_num
  have h2 : l2Norm (![1 / 2, (0 : ℝ)] : Fin 2 → ℝ) = 1 / 2 := by
    simp only [l2Norm, Fin.sum_univ_two, Matrix.cons_val_zero, Matrix.cons_val_one,
      Matrix.head_cons]
    rw [show ((1 / 2 : ℝ) ^ 2 + 0 ^ 2) = (1 / 2) ^ 2 by norm_num,
      Real.sqrt_sq (by norm_num : (0 : ℝ) ≤ 1 / 2)]
  have h3 : normalizeRow (![1 / 2, (0 : ℝ)] : Fin 2 → ℝ) 0 = 1 := by
    simp only [normalizeRow, h2]
    rw [max_eq_left (by norm_num [normEps] : normEps ≤ (1 / 2 : ℝ))]
    norm_num
  constructor
  · intro hEq
    have hval := congrFun (congrFun hEq 0) 0
    simp only [post_parameter_update] at hval
    rw [h1, h3] at hval
    simp only [Matrix.cons_val_zero] at hval
    norm_num at hval
  · intro hEq
    simp only [post_parameter_update] at hEq
    rw [h1, h2] at hEq
    norm_num at hEq

end PyKeen
